import Mathlib

/-!
Verification of the lineup overlap/uniqueness analysis engine of the
`get_xmltvlisting` repository.

The Python sources embedded here (shallowly, as executable Lean functions) are:
* `tools/analyze_channels_overlap.py` — `parse_channels`, `jaccard`, `main`;
* `src/get_xmltvlisting/xmltv_analyze.py` — `_read_xmltv_channels`, `_jaccard`,
  `analyze`;
* `tools/channels_overlap_report.py` — primary selection via Python `max`,
  per-member remove/keep split;
* `tools/build_channel_overlap_remove_lists.py` — `build_group`, `render`;
* `tools/build_keep_remove_report_v0_2_0.py` — base-lineup override branch.

Python dicts are modelled as association lists with insert-or-update (an
update keeps the key's original position, as CPython does); Python sets used
for output are modelled as `Finset String`, except where the similarity of two
runs is at issue, where the set's hidden iteration order is made explicit as a
`List`.  Python floats are modelled as `ℚ` (the quantities involved are exact
ratios of small naturals), and `f"{x:.4f}"` as fixed-point decimal rendering.
-/

namespace GetXmltv

/-- The whitespace characters removed by Python's `str.strip()`. -/
def isPySpace (c : Char) : Bool :=
  c = ' ' || c = '\t' || c = '\n' || c = '\x0d' || c = '\x0b' || c = '\x0c'

/-- Python `str.strip()`: remove leading and trailing whitespace. -/
def pyStrip (s : String) : String :=
  String.mk (((s.toList.dropWhile isPySpace).reverse.dropWhile isPySpace).reverse)

/-- Python compares characters by code point. -/
def charLt (a b : Char) : Bool := a.toNat < b.toNat

/-- Lexicographic code-point comparison of character lists: Python `<=` on
`str` values. -/
def charListLe : List Char → List Char → Bool
  | [], _ => true
  | _ :: _, [] => false
  | a :: as, b :: bs =>
    if charLt a b then true
    else if charLt b a then false
    else charListLe as bs

/-- Python `a <= b` on strings. -/
def strLe (a b : String) : Bool := charListLe a.data b.data

/-- Python `a < b` on strings. -/
def strLt (a b : String) : Bool := strLe a b && !(a == b)

/-- The relation form of `strLe`: the order Python `sorted` uses on strings. -/
def strLeRel (a b : String) : Prop := strLe a b = true

instance : DecidableRel strLeRel :=
  fun a b => inferInstanceAs (Decidable (strLe a b = true))

def charLt_iff {a b : Char} : charLt a b = true ↔ a.toNat < b.toNat := by
  simp [charLt]

def charLt_eq_false_iff {a b : Char} : charLt a b = false ↔ ¬ a.toNat < b.toNat := by
  simp [charLt]

def char_eq_of_toNat_eq {a b : Char} (h : a.toNat = b.toNat) : a = b := by
  rw [← Char.ofNat_toNat a, h, Char.ofNat_toNat]

def charListLe_total : ∀ as bs : List Char,
    charListLe as bs = true ∨ charListLe bs as = true := by
  intro as
  induction as with
  | nil => intro bs; left; simp [charListLe]
  | cons a as ih =>
    intro bs
    cases bs with
    | nil => right; simp [charListLe]
    | cons b bs =>
      by_cases h1 : charLt a b = true
      · left
        simp [charListLe, h1]
      · by_cases h2 : charLt b a = true
        · right
          simp [charListLe, h1, h2]
        · rcases ih bs with h | h
          · left
            simp [charListLe, h1, h2, h]
          · right
            simp [charListLe, h1, h2, h]

def charListLe_trans : ∀ as bs cs : List Char,
    charListLe as bs = true → charListLe bs cs = true →
    charListLe as cs = true := by
  intro as
  induction as with
  | nil => intro bs cs _ _; simp [charListLe]
  | cons a as ih =>
    intro bs cs h1 h2
    cases bs with
    | nil => simp [charListLe] at h1
    | cons b bs =>
      cases cs with
      | nil => simp [charListLe] at h2
      | cons c cs =>
        simp only [charListLe] at h1 h2 ⊢
        by_cases hab : charLt a b = true
        · rw [if_pos hab] at h1
          by_cases hbc : charLt b c = true
          · have hac : charLt a c = true := by
              rw [charLt_iff] at hab hbc ⊢
              omega
            rw [if_pos hac]
          · by_cases hcb : charLt c b = true
            · rw [if_neg hbc, if_pos hcb] at h2
              exact absurd h2 (by simp)
            · have hac : charLt a c = true := by
                rw [charLt_iff] at hab ⊢
                rw [charLt_iff] at hbc hcb
                omega
              rw [if_pos hac]
        · by_cases hba : charLt b a = true
          · rw [if_neg hab, if_pos hba] at h1
            exact absurd h1 (by simp)
          · rw [if_neg hab, if_neg hba] at h1
            have heq : a.toNat = b.toNat := by
              rw [charLt_iff] at hab hba
              omega
            by_cases hbc : charLt b c = true
            · have hac : charLt a c = true := by
                rw [charLt_iff] at hbc ⊢
                omega
              rw [if_pos hac]
            · by_cases hcb : charLt c b = true
              · rw [if_neg hbc, if_pos hcb] at h2
                exact absurd h2 (by simp)
              · rw [if_neg hbc, if_neg hcb] at h2
                rw [charLt_iff] at hab hba hbc hcb
                have hac : charLt a c = false := by
                  rw [charLt_eq_false_iff]
                  omega
                have hca : charLt c a = false := by
                  rw [charLt_eq_false_iff]
                  omega
                rw [hac, hca]
                simpa using ih bs cs h1 h2

def charListLe_antisymm : ∀ as bs : List Char,
    charListLe as bs = true → charListLe bs as = true → as = bs := by
  intro as
  induction as with
  | nil =>
    intro bs h1 h2
    cases bs with
    | nil => rfl
    | cons b bs => simp [charListLe] at h2
  | cons a as ih =>
    intro bs h1 h2
    cases bs with
    | nil => simp [charListLe] at h1
    | cons b bs =>
      simp only [charListLe] at h1 h2
      by_cases hab : charLt a b = true
      · have hba : charLt b a = false := by
          rw [charLt_iff] at hab
          rw [charLt_eq_false_iff]
          omega
        rw [hba, if_pos hab] at h2
        exact absurd h2 (by simp)
      · by_cases hba : charLt b a = true
        · rw [if_neg hab, if_pos hba] at h1
          exact absurd h1 (by simp)
        · rw [if_neg hab, if_neg hba] at h1
          rw [if_neg hba, if_neg hab] at h2
          have heq : a = b := char_eq_of_toNat_eq (by
            rw [charLt_iff] at hab hba
            omega)
          rw [heq, ih bs h1 h2]

instance : IsTotal String strLeRel :=
  ⟨fun a b => charListLe_total a.data b.data⟩

instance : IsTrans String strLeRel :=
  ⟨fun a b c h1 h2 => charListLe_trans a.data b.data c.data h1 h2⟩

instance : IsAntisymm String strLeRel := by
  refine ⟨fun a b h1 h2 => ?_⟩
  have h := charListLe_antisymm a.data b.data h1 h2
  cases a
  cases b
  exact congrArg String.mk h

/-- Python `sorted` on a list of strings: sorts ascending by code-point
order (modelled with insertion sort; the result is the unique sorted
permutation). -/
def pySortList (l : List String) : List String :=
  List.insertionSort strLeRel l

def pySortList_perm_eq {l l' : List String} (h : l.Perm l') :
    pySortList l = pySortList l' :=
  List.eq_of_perm_of_sorted
    ((List.perm_insertionSort strLeRel l).trans
      (h.trans (List.perm_insertionSort strLeRel l').symm))
    (List.sorted_insertionSort strLeRel l)
    (List.sorted_insertionSort strLeRel l')

/-- Python `sorted(list(s))` for a multiset of strings: well defined because the
sorted listing does not depend on the iteration order. -/
def msSorted (m : Multiset String) : List String :=
  Quotient.liftOn m pySortList fun _ _ h => pySortList_perm_eq h

/-- Python `sorted(list(s))` for a set `s` of strings. -/
def pySorted (s : Finset String) : List String :=
  msSorted s.val

/-- One raw `<channel>` element as the XML layer hands it to the parser:
`id` is the optional `id` attribute (`ch.get("id")`), `displayNames` the
optional text of each `<display-name>` child in document order. -/
structure RawChannel where
  id : Option String
  displayNames : List (Option String)
deriving DecidableEq

/-- The expression `(ch.get("id") or "")` from `parse_channels`. -/
def rawId (r : RawChannel) : String := r.id.getD ""

/-- The first `<display-name>` whose text is present and non-blank after
stripping, stripped; `""` when none exists
(`analyze_channels_overlap.parse_channels`, lines 62–66). -/
def firstName : List (Option String) → String
  | [] => ""
  | none :: rest => firstName rest
  | some t :: rest => if pyStrip t = "" then firstName rest else pyStrip t

/-- A Python `dict[str, str]` as an association list in insertion order. -/
abbrev PyDict := List (String × String)

/-- The keys of a dict, in insertion order. -/
def dictKeyList (m : PyDict) : List String := m.map Prod.fst

/-- Assignment `d[k] = v` on a Python dict: an existing key keeps its position and gets
the new value; a new key is appended. -/
def dictInsert (m : PyDict) (k v : String) : PyDict :=
  if k ∈ dictKeyList m then m.map (fun p => if p.1 = k then (k, v) else p)
  else m ++ [(k, v)]

/-- Lookup `d.get(k, dflt)` on a Python dict. -/
def dictGetD (m : PyDict) (k dflt : String) : String :=
  match m.find? (fun p => p.1 = k) with
  | some p => p.2
  | none => dflt

/-- The key set `set(d.keys())` of a Python dict. -/
def dictKeys (m : PyDict) : Finset String := (dictKeyList m).toFinset

/-- One step of the `for ch in root.findall(".//channel")` loop of
`analyze_channels_overlap.parse_channels` (lines 57–68): strip the id, skip
the record when blank, otherwise store the first non-blank display name. -/
def parseStep (m : PyDict) (r : RawChannel) : PyDict :=
  let cid := pyStrip (rawId r)
  if cid = "" then m else dictInsert m cid (firstName r.displayNames)

/-- Source `analyze_channels_overlap.parse_channels`: fold the channel records into
a dict mapping `channel_id` to its first non-blank display name. -/
def parse_channels (records : List RawChannel) : PyDict :=
  records.foldl parseStep []

/-- Source `analyze_channels_overlap.jaccard` (lines 72–77):
`1.0` when both sets are empty, else `inter / union if union else 0.0`. -/
def jaccard (a b : Finset String) : ℚ :=
  if a = ∅ ∧ b = ∅ then 1
  else
    let inter := (a ∩ b).card
    let union := (a ∪ b).card
    if union ≠ 0 then (inter : ℚ) / (union : ℚ) else 0

/-- Source `xmltv_analyze._jaccard` (lines 62–69): the same with an explicit
one-empty branch returning `0.0`. -/
def xmltvJaccard (a b : Finset String) : ℚ :=
  if a = ∅ ∧ b = ∅ then 1
  else if a = ∅ ∨ b = ∅ then 0
  else
    let inter := (a ∩ b).card
    let union := (a ∪ b).card
    if union ≠ 0 then (inter : ℚ) / (union : ℚ) else 0

/-- The similarity value as the specification words it: Jaccard index with the
boundary policy `J(∅,∅) = 1`, `J(∅, nonempty) = J(nonempty, ∅) = 0`,
standard ratio otherwise. -/
def jaccardBySpec (a b : Finset String) : ℚ :=
  if a = ∅ ∧ b = ∅ then 1
  else if a = ∅ ∨ b = ∅ then 0
  else ((a ∩ b).card : ℚ) / ((a ∪ b).card : ℚ)

/-- Source `remove_ids = sorted(list(cset & pset))` from
`channels_overlap_report.main` line 148 / `build_channel_overlap_remove_lists.render`
line 149. -/
def remove_ids (cset pset : Finset String) : List String :=
  pySorted (cset ∩ pset)

/-- Source `keep_ids = sorted(list(cset - pset))` from
`channels_overlap_report.main` line 149 / `build_channel_overlap_remove_lists.render`
line 150. -/
def keep_ids (cset pset : Finset String) : List String :=
  pySorted (cset \ pset)

/-- Source `others = set().union(*[sets[x] for x in lineup_ids if x != lid]) if
len(lineup_ids) > 1 else set()` from `analyze_channels_overlap.main` line 148,
over the collection of `(lineup_id, channel_set)` pairs. -/
def othersUnion (sets : List (String × Finset String)) (lid : String) : Finset String :=
  if 1 < sets.length then
    ((sets.filter (fun p => p.1 != lid)).map Prod.snd).foldl (· ∪ ·) ∅
  else ∅

/-- Source `sets[lid] - others` from `analyze_channels_overlap.main` line 149. -/
def uniqueOf (sets : List (String × Finset String)) (lid : String) (s : Finset String) :
    Finset String :=
  s \ othersUnion sets lid

/-- One lineup of a comparison group: identifier, human label and parsed
channel-id set, as held by `lineup_data` in `channels_overlap_report.main`. -/
structure Lineup where
  lid : String
  label : String
  channels : Finset String
deriving DecidableEq

/-- One comparison step of CPython's `max(iterable, key=...)`: the running
best is replaced only when the new item's key is strictly greater. -/
def pymaxStep {α : Type} (key : α → Nat) (best y : α) : α :=
  if key best < key y then y else best

/-- Python `max(iterable, key=...)`: `none` on an empty iterable (Python
raises `ValueError`), otherwise the fold of `pymaxStep` over the iteration
order. -/
def pymax {α : Type} (key : α → Nat) : List α → Option α
  | [] => none
  | x :: xs => some (xs.foldl (pymaxStep key) x)

/-- Source `primary = max(members, key=lambda x: len(lineup_data[...]))` from
`channels_overlap_report.main` line 133 and
`build_channel_overlap_remove_lists.build_group` line 117. -/
def choosePrimary (members : List Lineup) : Option Lineup :=
  pymax (fun L => L.channels.card) members

/-- Source `sets = {lid: set(lineup_channels[lid].keys()) ...}` from
`analyze_channels_overlap.main` line 131, for an ordered collection of
parsed lineups. -/
def lineupSets (lineups : List (String × PyDict)) : List (String × Finset String) :=
  lineups.map (fun p => (p.1, dictKeys p.2))

/-- Lines 148–150 of `analyze_channels_overlap.main` for one lineup `lid`
with parsed dict `m`: `unique_ids = sorted(list(sets[lid] - others))` and
`items = [(cid, lineup_channels[lid].get(cid, "")) for cid in unique_ids]`. -/
def uniqueItems (lineups : List (String × PyDict)) (lid : String) (m : PyDict) :
    List (String × String) :=
  (pySorted (uniqueOf (lineupSets lineups) lid (dictKeys m))).map
    (fun cid => (cid, dictGetD m cid ""))

/-- Python `str.lower()` for the case-insensitive comparison of the
specification. -/
def pyLower (s : String) : String := String.mk (s.data.map Char.toLower)

/-- The presentation order the specification asks for, as a comparator on
`(channel_id, display_name)` items: ascending display name compared
case-insensitively, items without a display name after all named ones, raw
identifier as final tie-break. -/
def specNameLe (x y : String × String) : Bool :=
  let nx : Nat := if x.2 = "" then 1 else 0
  let ny : Nat := if y.2 = "" then 1 else 0
  if nx ≠ ny then decide (nx < ny)
  else if pyLower x.2 ≠ pyLower y.2 then strLt (pyLower x.2) (pyLower y.2)
  else strLe x.1 y.1

/-- A list of presented items is in the specification's name order when each
adjacent pair satisfies `specNameLe`. -/
def sortedBySpecName : List (String × String) → Bool
  | [] => true
  | [_] => true
  | x :: y :: rest => specNameLe x y && sortedBySpecName (y :: rest)

/-- Rounding `⌊x + 1/2⌋` on the raw numerator and denominator of a non-negative
rational: the rounding used when a similarity value is rendered (CPython
rounds the underlying double half-to-even; the two agree away from exact
half-way ties). -/
def halfUp (x : ℚ) : Int := (x.num * 2 + (x.den : Int)) / (2 * (x.den : Int))

/-- The last `p` decimal digits of `n`, zero-padded to width `p`. -/
def padDigits (p n : Nat) : String :=
  String.mk (((List.range p).reverse).map (fun i => Nat.digitChar (n / 10 ^ i % 10)))

/-- Formatting `f"{x:.4f}"` for a value in `[0, 1]`: whole part, a dot, exactly four
fractional digits — the precision is hard-coded at the call sites
(`analyze_channels_overlap.main` line 139, `xmltv_analyze.analyze` line 113). -/
def fmtFixed4 (q : ℚ) : String :=
  let n := (halfUp (q * 10000)).toNat
  toString (n / 10000) ++ "." ++ padDigits 4 (n % 10000)

/-- Modelled from the spec: fixed-point rendering with a caller-chosen
precision of `p` fractional digits — the capability the specification
attributes to the engine, used here only for comparison with the code's
hard-coded formatter. -/
def fmtFixedSpec (p : Nat) (q : ℚ) : String :=
  let n := (halfUp (q * ((10 ^ p : ℕ) : ℚ))).toNat
  toString (n / 10 ^ p) ++ "." ++ padDigits p (n % 10 ^ p)

/-- The text of one similarity cell exactly as the engine emits it. -/
def jaccardCell (a b : Finset String) : String := fmtFixed4 (jaccard a b)

/-- One block of the per-member report text: the remove/keep lists are
`none` for the member the loop skips with `continue`. -/
structure MemberRow where
  lid : String
  label : String
  removeList : Option (List String)
  keepList : Option (List String)
deriving DecidableEq

/-- The per-member loop of `channels_overlap_report.main` lines 141–163: the
elected primary is skipped (`continue`) and gets no remove/keep lists; every
other member is split against the primary's channel set. -/
def renderGroup (members : List Lineup) : List MemberRow :=
  match choosePrimary members with
  | none => []
  | some P =>
    members.map fun L =>
      if (L.lid, L.label) = (P.lid, P.label) then ⟨L.lid, L.label, none, none⟩
      else ⟨L.lid, L.label, some (remove_ids L.channels P.channels),
        some (keep_ids L.channels P.channels)⟩

/-- Source `channel_num` of `build_keep_remove_report_v0_2_0` (lines 36–39): the
leading digits of the stripped channel id, or a large sentinel pushing the
id to the bottom. -/
def leadingNum (cid : String) : Nat :=
  let t := (pyStrip cid).data.takeWhile Char.isDigit
  if t = [] then 999999999
  else t.foldl (fun acc c => acc * 10 + (c.toNat - 48)) 0

/-- Source `sort_key` of `build_keep_remove_report_v0_2_0` (lines 94–96):
`(channel_num(cid), name.lower(), cid)`. -/
def sortKey024 (channels : PyDict) (cid : String) : Nat × String × String :=
  (leadingNum cid, pyLower (pyStrip (dictGetD channels cid "")), cid)

/-- Lexicographic comparison of `sort_key` tuples, as Python compares them. -/
def tupleLe (x y : Nat × String × String) : Bool :=
  if x.1 ≠ y.1 then decide (x.1 < y.1)
  else if x.2.1 ≠ y.2.1 then strLt x.2.1 y.2.1
  else strLe x.2.2 y.2.2

/-- Python `sorted(ids, key=lambda cid: sort_key(cid, channels))`. -/
def sortByKey024 (channels : PyDict) (ids : List String) : List String :=
  List.insertionSort
    (fun a b => tupleLe (sortKey024 channels a) (sortKey024 channels b) = true) ids

/-- One lineup's keep/remove block in the v0.2.0 report. -/
structure KeepRemoveRow where
  keepAll : Bool
  keepIds : List String
  removeIds : List String
deriving DecidableEq

/-- The per-lineup body of `build_keep_remove_report_v0_2_0.main` lines
137–145: the designated base lineup keeps everything and removes nothing
(`KEEP ALL` / `REMOVE: NONE`); any other lineup keeps its unique set and
removes the rest, each sorted by `sort_key`. -/
def keepRemoveRow (baseId lid : String) (channels : PyDict)
    (keepSet : Finset String) : KeepRemoveRow :=
  if lid = baseId then ⟨true, [], []⟩
  else
    ⟨false, sortByKey024 channels (pySorted keepSet),
      sortByKey024 channels (pySorted (dictKeys channels \ keepSet))⟩

/-- Intersection `a.filter (· ∈ b)`: the elements of the iteration order `a` that also
lie in `b` — `sets[a] & sets[b]` with the hidden set iteration order made
explicit. -/
def pyInterList (a b : List String) : List String :=
  a.filter (fun x => decide (x ∈ b))

/-- Difference `sets[a] - sets[b]` with the iteration order made explicit. -/
def pyDiffList (a b : List String) : List String :=
  a.filter (fun x => decide (x ∉ b))

/-- Source `len(sets[a] & sets[b])`: one cell of the intersection-count matrix. -/
def countCell (a b : List String) : Nat := (pyInterList a b).length

/-- Source `jaccard` evaluated on iteration-order representations of the two sets. -/
def jaccardRepr (a b : List String) : ℚ :=
  if a = [] ∧ b = [] then 1
  else
    let inter := (pyInterList a b).length
    let union := (a ++ pyDiffList b a).length
    if union ≠ 0 then (inter : ℚ) / (union : ℚ) else 0

/-- One similarity cell as emitted, from the iteration-order representations. -/
def jacCell (a b : List String) : String := fmtFixed4 (jaccardRepr a b)

/-- Python `sorted(list(sets[lid] - others))` from the iteration-order
representations. -/
def uniqueSortedRepr (a others : List String) : List String :=
  pySortList (pyDiffList a others)

lemma union_card_ne_zero_left {a b : Finset String} (ha : a ≠ ∅) :
    (a ∪ b).card ≠ 0 := by
  have : a.Nonempty := Finset.nonempty_iff_ne_empty.mpr ha
  have : (a ∪ b).Nonempty := this.mono Finset.subset_union_left
  simpa [Finset.card_eq_zero] using Finset.nonempty_iff_ne_empty.mp this

lemma union_card_ne_zero_right {a b : Finset String} (hb : b ≠ ∅) :
    (a ∪ b).card ≠ 0 := by
  have : b.Nonempty := Finset.nonempty_iff_ne_empty.mpr hb
  have : (a ∪ b).Nonempty := this.mono Finset.subset_union_right
  simpa [Finset.card_eq_zero] using Finset.nonempty_iff_ne_empty.mp this

lemma mem_msSorted (m : Multiset String) (x : String) :
    x ∈ msSorted m ↔ x ∈ m :=
  Quotient.inductionOn m fun l => by
    show x ∈ List.insertionSort strLeRel l ↔ _
    rw [(List.perm_insertionSort strLeRel l).mem_iff]
    simp

lemma mem_pySorted (s : Finset String) (x : String) :
    x ∈ pySorted s ↔ x ∈ s :=
  mem_msSorted s.val x

lemma pySorted_toFinset (s : Finset String) : (pySorted s).toFinset = s := by
  ext x
  rw [List.mem_toFinset, mem_pySorted]

lemma msSorted_sorted (m : Multiset String) : List.Sorted strLeRel (msSorted m) :=
  Quotient.inductionOn m fun l => List.sorted_insertionSort strLeRel l

lemma pySorted_sorted (s : Finset String) : List.Sorted strLeRel (pySorted s) :=
  msSorted_sorted s.val

lemma mem_foldl_union (l : List (Finset String)) (init : Finset String) (c : String) :
    c ∈ l.foldl (· ∪ ·) init ↔ c ∈ init ∨ ∃ t ∈ l, c ∈ t := by
  induction l generalizing init with
  | nil => simp
  | cons hd tl ih =>
    simp only [List.foldl_cons, ih, Finset.mem_union, List.mem_cons]
    constructor
    · rintro ((h | h) | ⟨t, ht, hc⟩)
      · exact Or.inl h
      · exact Or.inr ⟨hd, Or.inl rfl, h⟩
      · exact Or.inr ⟨t, Or.inr ht, hc⟩
    · rintro (h | ⟨t, (rfl | ht), hc⟩)
      · exact Or.inl (Or.inl h)
      · exact Or.inl (Or.inr hc)
      · exact Or.inr ⟨t, ht, hc⟩

lemma mem_othersUnion (sets : List (String × Finset String)) (lid : String) (c : String)
    (h : 1 < sets.length) :
    c ∈ othersUnion sets lid ↔ ∃ p ∈ sets, p.1 ≠ lid ∧ c ∈ p.2 := by
  unfold othersUnion
  rw [if_pos h, mem_foldl_union]
  simp only [Finset.not_mem_empty, false_or, List.mem_map, List.mem_filter, bne_iff_ne]
  constructor
  · rintro ⟨t, ⟨p, ⟨hp, hne⟩, rfl⟩, hc⟩
    exact ⟨p, hp, hne, hc⟩
  · rintro ⟨p, hp, hne, hc⟩
    exact ⟨p.2, ⟨p, ⟨hp, hne⟩, rfl⟩, hc⟩

lemma dictKeyList_insert (m : PyDict) (k v : String) :
    dictKeyList (dictInsert m k v) =
      if k ∈ dictKeyList m then dictKeyList m else dictKeyList m ++ [k] := by
  unfold dictInsert
  by_cases h : k ∈ dictKeyList m
  · rw [if_pos h, if_pos h]
    unfold dictKeyList
    rw [List.map_map]
    refine List.map_congr_left fun p _ => ?_
    by_cases hp : p.1 = k
    · simp [hp]
    · simp [hp]
  · rw [if_neg h, if_neg h]
    simp [dictKeyList]

lemma mem_dictInsert {m : PyDict} {k v : String} {q : String × String}
    (h : q ∈ dictInsert m k v) : q ∈ m ∨ q.1 = k := by
  unfold dictInsert at h
  by_cases hk : k ∈ dictKeyList m
  · rw [if_pos hk] at h
    obtain ⟨p, hp, hq⟩ := List.mem_map.mp h
    by_cases hpk : p.1 = k
    · right
      rw [← hq]
      simp [hpk]
    · left
      rw [← hq]
      simpa [hpk] using hp
  · rw [if_neg hk] at h
    rcases List.mem_append.mp h with h | h
    · exact Or.inl h
    · right
      simp only [List.mem_singleton] at h
      rw [h]

lemma self_mem_keys_insert (m : PyDict) (k v : String) :
    k ∈ dictKeyList (dictInsert m k v) := by
  rw [dictKeyList_insert]
  by_cases h : k ∈ dictKeyList m
  · rwa [if_pos h]
  · rw [if_neg h]
    simp

lemma keys_mono_insert {m : PyDict} {x : String} (k v : String)
    (h : x ∈ dictKeyList m) : x ∈ dictKeyList (dictInsert m k v) := by
  rw [dictKeyList_insert]
  by_cases hk : k ∈ dictKeyList m
  · rwa [if_pos hk]
  · rw [if_neg hk]
    exact List.mem_append_left _ h

lemma nodup_keys_insert {m : PyDict} (k v : String)
    (h : (dictKeyList m).Nodup) : (dictKeyList (dictInsert m k v)).Nodup := by
  rw [dictKeyList_insert]
  by_cases hk : k ∈ dictKeyList m
  · rwa [if_pos hk]
  · rw [if_neg hk]
    simp [List.nodup_append, h, hk]

lemma find?_map_replace {k : String} (v : String) :
    ∀ m : PyDict, k ∈ dictKeyList m →
      (m.map (fun p => if p.1 = k then (k, v) else p)).find? (fun p => p.1 = k) =
        some (k, v) := by
  intro m
  induction m with
  | nil => simp [dictKeyList]
  | cons p rest ih =>
    intro hmem
    by_cases hp : p.1 = k
    · simp [hp, List.find?_cons_of_pos]
    · have hrest : k ∈ dictKeyList rest := by
        rcases by simpa [dictKeyList] using hmem with h | h
        · exact absurd h.symm hp
        · simpa [dictKeyList] using h
      rw [List.map_cons, List.find?_cons_of_neg, ih hrest]
      simp [hp]

lemma find?_append_blank_ne {k k' : String} (hkk : k ≠ k') (v : String) :
    ∀ m : PyDict,
      (m ++ [(k', v)]).find? (fun p => p.1 = k) = m.find? (fun p => p.1 = k) := by
  intro m
  induction m with
  | nil => simp [Ne.symm hkk]
  | cons p rest ih =>
    by_cases hp : p.1 = k
    · rw [List.cons_append, List.find?_cons_of_pos _ (by simp [hp]),
        List.find?_cons_of_pos _ (by simp [hp])]
    · rw [List.cons_append, List.find?_cons_of_neg _ (by simp [hp]),
        List.find?_cons_of_neg _ (by simp [hp]), ih]

lemma find?_map_replace_ne {k k' : String} (hkk : k ≠ k') (v : String) :
    ∀ m : PyDict,
      (m.map (fun p => if p.1 = k' then (k', v) else p)).find? (fun p => p.1 = k) =
        m.find? (fun p => p.1 = k) := by
  intro m
  induction m with
  | nil => simp
  | cons p rest ih =>
    by_cases hp : p.1 = k'
    · rw [List.map_cons, if_pos hp,
        List.find?_cons_of_neg _ (by simp [Ne.symm hkk]),
        List.find?_cons_of_neg _ (by simp [hp, Ne.symm hkk]), ih]
    · by_cases hpk : p.1 = k
      · rw [List.map_cons, if_neg hp, List.find?_cons_of_pos _ (by simp [hpk]),
          List.find?_cons_of_pos _ (by simp [hpk])]
      · rw [List.map_cons, if_neg hp, List.find?_cons_of_neg _ (by simp [hpk]),
          List.find?_cons_of_neg _ (by simp [hpk]), ih]

lemma find?_append_self {k : String} (v : String) :
    ∀ m : PyDict, k ∉ dictKeyList m →
      (m ++ [(k, v)]).find? (fun p => p.1 = k) = some (k, v) := by
  intro m
  induction m with
  | nil => simp [List.find?]
  | cons p rest ih =>
    intro hk
    have hp : ¬ p.1 = k := fun h => hk (by simp [dictKeyList, h])
    have hrest : k ∉ dictKeyList rest := fun h => hk (by simp [dictKeyList] at h ⊢; tauto)
    rw [List.cons_append, List.find?_cons_of_neg _ (by simp [hp]), ih hrest]

lemma dictGetD_insert_self (m : PyDict) (k v d : String) :
    dictGetD (dictInsert m k v) k d = v := by
  unfold dictGetD dictInsert
  by_cases hk : k ∈ dictKeyList m
  · rw [if_pos hk, find?_map_replace v m hk]
  · rw [if_neg hk, find?_append_self v m hk]

lemma dictGetD_insert_ne {k k' : String} (hkk : k ≠ k') (m : PyDict) (v d : String) :
    dictGetD (dictInsert m k' v) k d = dictGetD m k d := by
  unfold dictGetD dictInsert
  by_cases hk : k' ∈ dictKeyList m
  · rw [if_pos hk, find?_map_replace_ne hkk v m]
  · rw [if_neg hk, find?_append_blank_ne hkk v m]

lemma foldl_parse_filter :
    ∀ (records : List RawChannel) (m : PyDict),
      records.foldl parseStep m =
        (records.filter (fun r => pyStrip (rawId r) != "")).foldl parseStep m := by
  intro records
  induction records with
  | nil => intro m; rfl
  | cons r rest ih =>
    intro m
    by_cases h : pyStrip (rawId r) = ""
    · rw [List.foldl_cons, show parseStep m r = m from by simp [parseStep, h],
        show (r :: rest).filter (fun r => pyStrip (rawId r) != "") =
          rest.filter (fun r => pyStrip (rawId r) != "") from by
            simp [List.filter_cons, h]]
      exact ih m
    · rw [List.foldl_cons,
        show (r :: rest).filter (fun r => pyStrip (rawId r) != "") =
          r :: rest.filter (fun r => pyStrip (rawId r) != "") from by
            simp [List.filter_cons, h],
        List.foldl_cons]
      exact ih (parseStep m r)

lemma parse_keys_ne_blank :
    ∀ (records : List RawChannel) (m : PyDict),
      (∀ p ∈ m, p.1 ≠ "") → ∀ p ∈ records.foldl parseStep m, p.1 ≠ "" := by
  intro records
  induction records with
  | nil => intro m hm; exact hm
  | cons r rest ih =>
    intro m hm
    rw [List.foldl_cons]
    refine ih (parseStep m r) ?_
    intro p hp
    unfold parseStep at hp
    by_cases h : pyStrip (rawId r) = ""
    · rw [if_pos h] at hp
      exact hm p hp
    · rw [if_neg h] at hp
      rcases mem_dictInsert hp with hmem | hkey
      · exact hm p hmem
      · rw [hkey]
        exact h

lemma dictGetD_foldl_preserved {k : String} :
    ∀ (ts : List RawChannel) (m : PyDict) (d : String),
      (∀ t ∈ ts, pyStrip (rawId t) ≠ k) →
      dictGetD (ts.foldl parseStep m) k d = dictGetD m k d := by
  intro ts
  induction ts with
  | nil => intro m d _; rfl
  | cons t rest ih =>
    intro m d hts
    rw [List.foldl_cons, ih _ _ (fun x hx => hts x (List.mem_cons_of_mem t hx))]
    unfold parseStep
    by_cases h : pyStrip (rawId t) = ""
    · rw [if_pos h]
    · rw [if_neg h]
      exact dictGetD_insert_ne
        (fun hk => hts t (List.mem_cons_self t rest) hk.symm) m _ d

lemma keys_mono_foldl {x : String} :
    ∀ (ts : List RawChannel) (m : PyDict), x ∈ dictKeyList m →
      x ∈ dictKeyList (ts.foldl parseStep m) := by
  intro ts
  induction ts with
  | nil => intro m hm; exact hm
  | cons t rest ih =>
    intro m hm
    rw [List.foldl_cons]
    refine ih (parseStep m t) ?_
    unfold parseStep
    by_cases h : pyStrip (rawId t) = ""
    · rwa [if_pos h]
    · rw [if_neg h]
      exact keys_mono_insert _ _ hm

lemma nodup_keys_foldl :
    ∀ (ts : List RawChannel) (m : PyDict), (dictKeyList m).Nodup →
      (dictKeyList (ts.foldl parseStep m)).Nodup := by
  intro ts
  induction ts with
  | nil => intro m hm; exact hm
  | cons t rest ih =>
    intro m hm
    rw [List.foldl_cons]
    refine ih (parseStep m t) ?_
    unfold parseStep
    by_cases h : pyStrip (rawId t) = ""
    · rwa [if_pos h]
    · rw [if_neg h]
      exact nodup_keys_insert _ _ hm

lemma foldl_pymax_spec {α : Type} (key : α → Nat) :
    ∀ (xs : List α) (b : α),
      (key b ≤ key (xs.foldl (pymaxStep key) b) ∧
        ∀ z ∈ xs, key z ≤ key (xs.foldl (pymaxStep key) b)) ∧
      (xs.foldl (pymaxStep key) b = b ∨
        ∃ l1 l2, xs = l1 ++ (xs.foldl (pymaxStep key) b) :: l2 ∧
          key b < key (xs.foldl (pymaxStep key) b) ∧
          ∀ z ∈ l1, key z < key (xs.foldl (pymaxStep key) b)) := by
  intro xs
  induction xs with
  | nil => exact fun b => ⟨⟨le_refl _, by simp⟩, Or.inl rfl⟩
  | cons y ys ih =>
    intro b
    by_cases h : key b < key y
    · rw [List.foldl_cons, show pymaxStep key b y = y from by simp [pymaxStep, h]]
      obtain ⟨⟨hy, hall⟩, hdec⟩ := ih y
      refine ⟨⟨le_of_lt (lt_of_lt_of_le h hy), ?_⟩, ?_⟩
      · intro z hz
        rcases List.mem_cons.mp hz with rfl | hz
        · exact hy
        · exact hall z hz
      · rcases hdec with heq | ⟨l1, l2, hsplit, hlt, hpre⟩
        · refine Or.inr ⟨[], ys, by simp [heq], ?_, by simp⟩
          rw [heq]
          exact h
        · refine Or.inr ⟨y :: l1, l2, ?_, lt_trans h hlt, ?_⟩
          · rw [List.cons_append, ← hsplit]
          · intro z hz
            rcases List.mem_cons.mp hz with rfl | hz
            · exact hlt
            · exact hpre z hz
    · rw [List.foldl_cons, show pymaxStep key b y = b from by simp [pymaxStep, h]]
      obtain ⟨⟨hb, hall⟩, hdec⟩ := ih b
      refine ⟨⟨hb, ?_⟩, ?_⟩
      · intro z hz
        rcases List.mem_cons.mp hz with rfl | hz
        · exact le_trans (le_of_not_lt h) hb
        · exact hall z hz
      · rcases hdec with heq | ⟨l1, l2, hsplit, hlt, hpre⟩
        · exact Or.inl heq
        · refine Or.inr ⟨y :: l1, l2, ?_, hlt, ?_⟩
          · rw [List.cons_append, ← hsplit]
          · intro z hz
            rcases List.mem_cons.mp hz with rfl | hz
            · exact lt_of_le_of_lt (le_of_not_lt h) hlt
            · exact hpre z hz

lemma padDigits_length (p n : Nat) : (padDigits p n).length = p := by
  simp [padDigits, String.length]

lemma halfUp_ofNat (n : Nat) [n.AtLeastTwo] :
    halfUp (OfNat.ofNat n : ℚ) = OfNat.ofNat n := by
  unfold halfUp
  rw [Rat.num_ofNat, Rat.den_ofNat]
  omega

lemma jaccard_single_pair : jaccard {"1"} {"1", "2"} = 1 / 2 := by
  have hne : ¬(({"1"} : Finset String) = ∅ ∧ ({"1", "2"} : Finset String) = ∅) := by
    decide
  have hi : (({"1"} : Finset String) ∩ {"1", "2"}).card = 1 := by decide
  have hu : (({"1"} : Finset String) ∪ {"1", "2"}).card = 2 := by decide
  unfold jaccard
  rw [if_neg hne]
  simp only [hi, hu]
  norm_num

/-- C1: for every pair of lineups, both implementations of the similarity
value compute the Jaccard index `|A∩B| / |A∪B|` over the channel-id sets with
the boundary policy: `1.0` when both sets are empty, `0.0` when exactly one
is empty, the standard ratio otherwise. -/
theorem jaccard_matches_spec (a b : Finset String) :
    jaccard a b = jaccardBySpec a b ∧ xmltvJaccard a b = jaccardBySpec a b := by
  constructor
  · unfold jaccard jaccardBySpec
    by_cases hab : a = ∅ ∧ b = ∅
    · simp [hab]
    · simp only [if_neg hab]
      by_cases ha : a = ∅
      · have hb : b ≠ ∅ := fun hb => hab ⟨ha, hb⟩
        have hu := union_card_ne_zero_right (a := a) hb
        simp [ha, hb, hu, Finset.empty_inter]
      · have hu := union_card_ne_zero_left (b := b) ha
        by_cases hb : b = ∅
        · simp [ha, hb, hu, Finset.inter_empty]
        · simp [ha, hb, hu]
  · unfold xmltvJaccard jaccardBySpec
    by_cases hab : a = ∅ ∧ b = ∅
    · simp [hab]
    · simp only [if_neg hab]
      by_cases hor : a = ∅ ∨ b = ∅
      · simp [hor]
      · push_neg at hor
        have hu := union_card_ne_zero_left (b := b) hor.1
        simp [hor.1, hor.2, hu]

/-- C2: for every lineup `(lid, s)` in a collection, the unique set is the
channel set minus the union of the channel sets of every other lineup — an
identifier is unique exactly when it lies in `s` and in no peer's set — and
when the collection has exactly one lineup the unique set is the whole
channel set. -/
theorem unique_channels_correct (sets : List (String × Finset String))
    (lid : String) (s : Finset String) (hmem : (lid, s) ∈ sets) :
    (∀ c, c ∈ uniqueOf sets lid s ↔ c ∈ s ∧ ∀ p ∈ sets, p.1 ≠ lid → c ∉ p.2) ∧
    (sets.length = 1 → uniqueOf sets lid s = s) := by
  refine ⟨fun c => ?_, fun hlen => ?_⟩
  · by_cases h : 1 < sets.length
    · unfold uniqueOf
      rw [Finset.mem_sdiff, mem_othersUnion sets lid c h]
      push_neg
      constructor
      · rintro ⟨hs, hno⟩
        exact ⟨hs, fun p hp hne => hno p hp hne⟩
      · rintro ⟨hs, hno⟩
        exact ⟨hs, fun p hp hne => hno p hp hne⟩
    · have hlen : sets.length = 1 := by
        have hpos : 0 < sets.length := List.length_pos.mpr (List.ne_nil_of_mem hmem)
        omega
      obtain ⟨x, hx⟩ := List.length_eq_one.mp hlen
      subst hx
      have hx' : (lid, s) = x := by simpa using hmem
      subst hx'
      unfold uniqueOf othersUnion
      simp
  · unfold uniqueOf othersUnion
    rw [if_neg (by omega)]
    simp

/-- Witness for `unique_channels_correct` on a concrete two-lineup collection. -/
theorem unique_channels_correct_witness :
    (∀ c, c ∈ uniqueOf [("a", {"1", "2"}), ("b", {"2", "3"})] "a" {"1", "2"} ↔
      c ∈ ({"1", "2"} : Finset String) ∧
      ∀ p ∈ [(("a" : String), ({"1", "2"} : Finset String)), ("b", {"2", "3"})],
        p.1 ≠ "a" → c ∉ p.2) ∧
    (([(("a" : String), ({"1", "2"} : Finset String)), ("b", {"2", "3"})]).length = 1 →
      uniqueOf [("a", {"1", "2"}), ("b", {"2", "3"})] "a" {"1", "2"} = {"1", "2"}) :=
  unique_channels_correct [("a", {"1", "2"}), ("b", {"2", "3"})] "a" {"1", "2"}
    (by simp)

/-- C3: the selected primary of a group is a lineup with maximal channel
count, and every member listed before it in the group's configured iteration
order has a strictly smaller count — so on ties the first member in order is
elected, and the choice is a pure function of the ordered member list. -/
theorem primary_is_first_max (members : List Lineup) (P : Lineup)
    (h : choosePrimary members = some P) :
    (∀ L ∈ members, L.channels.card ≤ P.channels.card) ∧
    ∃ pre post, members = pre ++ P :: post ∧
      ∀ L ∈ pre, L.channels.card < P.channels.card := by
  unfold choosePrimary pymax at h
  match members, h with
  | x :: xs, h =>
    have hP : xs.foldl (pymaxStep fun L => L.channels.card) x = P :=
      Option.some.inj h
    obtain ⟨⟨hx, hall⟩, hdec⟩ := foldl_pymax_spec (fun L => L.channels.card) xs x
    rw [hP] at hx hall hdec
    constructor
    · intro L hL
      rcases List.mem_cons.mp hL with rfl | hL
      · exact hx
      · exact hall L hL
    · rcases hdec with heq | ⟨l1, l2, hsplit, hlt, hpre⟩
      · exact ⟨[], xs, by simp [heq], by simp⟩
      · refine ⟨x :: l1, l2, by rw [List.cons_append, ← hsplit], ?_⟩
        intro L hL
        rcases List.mem_cons.mp hL with rfl | hL
        · exact hlt
        · exact hpre L hL

/-- Witness for `primary_is_first_max`: two lineups tie at two channels; the
first in iteration order is elected. -/
theorem primary_is_first_max_witness :
    (∀ L ∈ [Lineup.mk "10270" "A" {"1", "2"}, Lineup.mk "10269" "B" {"2", "3"},
        Lineup.mk "10268" "C" {"9"}],
      L.channels.card ≤ (Lineup.mk "10270" "A" {"1", "2"}).channels.card) ∧
    ∃ pre post,
      [Lineup.mk "10270" "A" {"1", "2"}, Lineup.mk "10269" "B" {"2", "3"},
        Lineup.mk "10268" "C" {"9"}] =
        pre ++ (Lineup.mk "10270" "A" {"1", "2"}) :: post ∧
      ∀ L ∈ pre, L.channels.card < (Lineup.mk "10270" "A" {"1", "2"}).channels.card :=
  primary_is_first_max
    [Lineup.mk "10270" "A" {"1", "2"}, Lineup.mk "10269" "B" {"2", "3"},
      Lineup.mk "10268" "C" {"9"}]
    (Lineup.mk "10270" "A" {"1", "2"}) (by decide)

/-- C4: for every lineup channel set compared against a primary channel set,
the remove/keep split is an exact disjoint partition of the lineup's channel
set: `remove ∪ keep = channel_set(L)` and `remove ∩ keep = ∅`. -/
theorem remove_keep_partition (cset pset : Finset String) :
    (remove_ids cset pset).toFinset ∪ (keep_ids cset pset).toFinset = cset ∧
    (remove_ids cset pset).toFinset ∩ (keep_ids cset pset).toFinset = ∅ := by
  unfold remove_ids keep_ids
  rw [pySorted_toFinset, pySorted_toFinset]
  constructor
  · ext x
    simp only [Finset.mem_union, Finset.mem_inter, Finset.mem_sdiff]
    tauto
  · ext x
    simp only [Finset.mem_inter, Finset.mem_sdiff, Finset.not_mem_empty]
    tauto

/-- C5: records whose channel id is empty or blank after stripping are
silently discarded at ingestion — dropping them from the input changes
nothing, every key that enters the mapping is non-empty, and an input with
no valid record yields the empty mapping rather than an error. -/
theorem blank_records_discarded (records : List RawChannel) :
    parse_channels records =
      parse_channels (records.filter (fun r => pyStrip (rawId r) != "")) ∧
    (∀ p ∈ parse_channels records, p.1 ≠ "") ∧
    ((∀ r ∈ records, pyStrip (rawId r) = "") → parse_channels records = []) := by
  refine ⟨foldl_parse_filter records [], parse_keys_ne_blank records [] (by simp), ?_⟩
  intro hall
  have hnil : records.filter (fun r => pyStrip (rawId r) != "") = [] := by
    rw [List.filter_eq_nil_iff]
    intro r hr
    simp [hall r hr]
  have := foldl_parse_filter records []
  rw [hnil] at this
  exact this

/-- Witness for `blank_records_discarded` on a concrete record list whose
ids are a blank string and a missing attribute. -/
theorem blank_records_discarded_witness :
    parse_channels [⟨some "  ", [some "CNN"]⟩, ⟨none, [some "X"]⟩] =
      parse_channels (([⟨some "  ", [some "CNN"]⟩, ⟨none, [some "X"]⟩] :
        List RawChannel).filter (fun r => pyStrip (rawId r) != "")) ∧
    (∀ p ∈ parse_channels [⟨some "  ", [some "CNN"]⟩, ⟨none, [some "X"]⟩], p.1 ≠ "") ∧
    ((∀ r ∈ ([⟨some "  ", [some "CNN"]⟩, ⟨none, [some "X"]⟩] : List RawChannel),
        pyStrip (rawId r) = "") →
      parse_channels [⟨some "  ", [some "CNN"]⟩, ⟨none, [some "X"]⟩] = []) :=
  blank_records_discarded [⟨some "  ", [some "CNN"]⟩, ⟨none, [some "X"]⟩]

/-- C6 counterexample: the engine presents the unique channels of lineup
`"9"` sorted by raw channel id — `ZZZ` before `AAA` — so the presented list
is not in the display-name order the claim states. -/
theorem unique_order_counterexample :
    uniqueItems [("9", [("1", "ZZZ"), ("2", "AAA")]), ("8", [("3", "XXX")])] "9"
        [("1", "ZZZ"), ("2", "AAA")] = [("1", "ZZZ"), ("2", "AAA")] ∧
    sortedBySpecName [("1", "ZZZ"), ("2", "AAA")] = false := by
  constructor
  · decide
  · decide

/-- C6 as amended: the presented list of unique channels is sorted ascending
by the raw channel identifier; the display names carried alongside play no
role in the order. -/
theorem unique_order_by_id (lineups : List (String × PyDict)) (lid : String)
    (m : PyDict) :
    List.Sorted strLeRel ((uniqueItems lineups lid m).map Prod.fst) ∧
    (uniqueItems lineups lid m).map Prod.fst =
      pySorted (uniqueOf (lineupSets lineups) lid (dictKeys m)) := by
  have hmap : (uniqueItems lineups lid m).map Prod.fst =
      pySorted (uniqueOf (lineupSets lineups) lid (dictKeys m)) := by
    unfold uniqueItems
    rw [List.map_map]
    exact List.map_id'' (fun _ => rfl) _
  refine ⟨?_, hmap⟩
  rw [hmap]
  exact pySorted_sorted _

/-- C7 counterexample: on the lineup pair `{"1"}` vs `{"1","2"}` the engine
emits `"0.5000"`, which matches no fixed precision of 2, 3, 5 or 6 digits —
the precision is hard-coded to 4 and no caller-chosen precision is honored. -/
theorem precision_counterexample :
    jaccardCell {"1"} {"1", "2"} = "0.5000" ∧
    ∀ p ∈ [2, 3, 5, 6], fmtFixedSpec p (jaccard {"1"} {"1", "2"}) ≠
      jaccardCell {"1"} {"1", "2"} := by
  have hcell : jaccardCell {"1"} {"1", "2"} = "0.5000" := by
    unfold jaccardCell fmtFixed4
    rw [jaccard_single_pair, show (1 / 2 : ℚ) * 10000 = 5000 from by norm_num,
      halfUp_ofNat]
    decide
  refine ⟨hcell, ?_⟩
  intro p hp
  rw [jaccard_single_pair, hcell]
  fin_cases hp
  · rw [show fmtFixedSpec 2 (1 / 2 : ℚ) = "0.50" from ?_]
    · decide
    · unfold fmtFixedSpec
      rw [show (1 / 2 : ℚ) * ((10 ^ 2 : ℕ) : ℚ) = 50 from by norm_num, halfUp_ofNat]
      decide
  · rw [show fmtFixedSpec 3 (1 / 2 : ℚ) = "0.500" from ?_]
    · decide
    · unfold fmtFixedSpec
      rw [show (1 / 2 : ℚ) * ((10 ^ 3 : ℕ) : ℚ) = 500 from by norm_num, halfUp_ofNat]
      decide
  · rw [show fmtFixedSpec 5 (1 / 2 : ℚ) = "0.50000" from ?_]
    · decide
    · unfold fmtFixedSpec
      rw [show (1 / 2 : ℚ) * ((10 ^ 5 : ℕ) : ℚ) = 50000 from by norm_num, halfUp_ofNat]
      decide
  · rw [show fmtFixedSpec 6 (1 / 2 : ℚ) = "0.500000" from ?_]
    · decide
    · unfold fmtFixedSpec
      rw [show (1 / 2 : ℚ) * ((10 ^ 6 : ℕ) : ℚ) = 500000 from by norm_num, halfUp_ofNat]
      decide

/-- C7 as amended: every emitted similarity cell is rendered at the fixed
default precision of 4 fractional digits — the engine's output coincides
with the specification's formatter at precision 4 on every input, and always
carries exactly 4 digits after the decimal point. -/
theorem similarity_fixed_four_digits (a b : Finset String) :
    jaccardCell a b = fmtFixedSpec 4 (jaccard a b) ∧
    ∃ w f, jaccardCell a b = w ++ "." ++ f ∧ f.length = 4 := by
  constructor
  · unfold jaccardCell fmtFixed4 fmtFixedSpec
    norm_num
  · exact ⟨toString ((halfUp (jaccard a b * 10000)).toNat / 10000),
      padDigits 4 ((halfUp (jaccard a b * 10000)).toNat % 10000), rfl,
      padDigits_length 4 _⟩

/-- C8: the baseline of a group — the elected max-count primary, or the
configured base lineup — is always reported fully kept with no removal list,
whatever the channel counts are: the primary's report row carries no
remove/keep lists, and the base-lineup row is keep-all/remove-none for every
possible channel map and unique set. -/
theorem baseline_reported_keep_all (members : List Lineup) (P : Lineup)
    (hP : choosePrimary members = some P) (baseId : String) (channels : PyDict)
    (keepSet : Finset String) :
    (∀ row ∈ renderGroup members,
      (row.lid, row.label) = (P.lid, P.label) →
        row.removeList = none ∧ row.keepList = none) ∧
    keepRemoveRow baseId baseId channels keepSet = ⟨true, [], []⟩ := by
  constructor
  · intro row hrow hmatch
    unfold renderGroup at hrow
    rw [hP] at hrow
    obtain ⟨L, hL, hrow⟩ := List.mem_map.mp hrow
    by_cases hc : (L.lid, L.label) = (P.lid, P.label)
    · rw [if_pos hc] at hrow
      rw [← hrow]
      exact ⟨rfl, rfl⟩
    · rw [if_neg hc] at hrow
      rw [← hrow] at hmatch
      exact absurd hmatch hc
  · unfold keepRemoveRow
    rw [if_pos rfl]

/-- Witness for `baseline_reported_keep_all` on a two-member group with a
concrete base lineup. -/
theorem baseline_reported_keep_all_witness :
    (∀ row ∈ renderGroup [Lineup.mk "10270" "A" {"1", "2"}, Lineup.mk "10269" "B" {"1"}],
      (row.lid, row.label) = ((Lineup.mk "10270" "A" {"1", "2"}).lid,
        (Lineup.mk "10270" "A" {"1", "2"}).label) →
        row.removeList = none ∧ row.keepList = none) ∧
    keepRemoveRow "9330" "9330" [("5", "X")] {"7"} = ⟨true, [], []⟩ :=
  baseline_reported_keep_all
    [Lineup.mk "10270" "A" {"1", "2"}, Lineup.mk "10269" "B" {"1"}]
    (Lineup.mk "10270" "A" {"1", "2"}) (by decide) "9330" [("5", "X")] {"7"}

/-- C9: every emitted analysis artifact — an intersection-count cell, a
similarity cell, a sorted unique-channel list — is invariant under the
hidden iteration order of the underlying sets: two runs over identical
inputs, whatever order their sets happen to iterate in, emit byte-identical
output. -/
theorem analysis_run_deterministic (a a' b b' o o' : List String)
    (ha : a.Perm a') (hb : b.Perm b') (ho : o.Perm o') :
    countCell a b = countCell a' b' ∧
    jacCell a b = jacCell a' b' ∧
    uniqueSortedRepr a o = uniqueSortedRepr a' o' := by
  have hip : (pyInterList a b).Perm (pyInterList a' b') := by
    unfold pyInterList
    rw [List.filter_congr (fun x _ => by simp [hb.mem_iff] :
      ∀ x ∈ a, (decide (x ∈ b)) = (decide (x ∈ b')))]
    exact ha.filter _
  have hdp : (pyDiffList b a).Perm (pyDiffList b' a') := by
    unfold pyDiffList
    rw [List.filter_congr (fun x _ => by simp [ha.mem_iff] :
      ∀ x ∈ b, (decide (x ∉ a)) = (decide (x ∉ a')))]
    exact hb.filter _
  have hop : (pyDiffList a o).Perm (pyDiffList a' o') := by
    unfold pyDiffList
    rw [List.filter_congr (fun x _ => by simp [ho.mem_iff] :
      ∀ x ∈ a, (decide (x ∉ o)) = (decide (x ∉ o')))]
    exact ha.filter _
  refine ⟨hip.length_eq, ?_, pySortList_perm_eq hop⟩
  unfold jacCell
  congr 1
  unfold jaccardRepr
  have hcond : (a = [] ∧ b = []) ↔ (a' = [] ∧ b' = []) := by
    simp only [← List.length_eq_zero, ha.length_eq, hb.length_eq]
  have hlen2 : (a ++ pyDiffList b a).length = (a' ++ pyDiffList b' a').length := by
    simp only [List.length_append, ha.length_eq, hdp.length_eq]
  exact if_congr hcond rfl (by rw [hip.length_eq, hlen2])

/-- Witness for `analysis_run_deterministic` on two concrete iteration
orders of the same sets. -/
theorem analysis_run_deterministic_witness :
    countCell ["1", "2"] ["2", "3"] = countCell ["2", "1"] ["3", "2"] ∧
    jacCell ["1", "2"] ["2", "3"] = jacCell ["2", "1"] ["3", "2"] ∧
    uniqueSortedRepr ["1", "2"] ["2"] = uniqueSortedRepr ["2", "1"] ["2"] :=
  analysis_run_deterministic ["1", "2"] ["2", "1"] ["2", "3"] ["3", "2"] ["2"] ["2"]
    (List.Perm.swap "2" "1" []) (List.Perm.swap "3" "2" []) (List.Perm.refl _)

/-- C10: when several records share the same stripped channel id, ingestion
keeps exactly one entry for that id — the display name of the last such
record is the stored value, the key list stays duplicate-free, and the id is
counted exactly once. -/
theorem duplicate_id_last_wins (rs ts : List RawChannel) (r : RawChannel)
    (hk : pyStrip (rawId r) ≠ "")
    (hts : ∀ t ∈ ts, pyStrip (rawId t) ≠ pyStrip (rawId r)) :
    dictGetD (parse_channels (rs ++ r :: ts)) (pyStrip (rawId r)) "" =
      firstName r.displayNames ∧
    (dictKeyList (parse_channels (rs ++ r :: ts))).Nodup ∧
    (dictKeyList (parse_channels (rs ++ r :: ts))).count (pyStrip (rawId r)) = 1 := by
  have hsplit : parse_channels (rs ++ r :: ts) =
      ts.foldl parseStep (parseStep (parse_channels rs) r) := by
    unfold parse_channels
    rw [List.foldl_append, List.foldl_cons]
  have hstep : parseStep (parse_channels rs) r =
      dictInsert (parse_channels rs) (pyStrip (rawId r)) (firstName r.displayNames) := by
    unfold parseStep
    rw [if_neg hk]
  have hnodup0 : (dictKeyList (parse_channels rs)).Nodup :=
    nodup_keys_foldl rs [] (by simp [dictKeyList])
  have hnodup : (dictKeyList (parse_channels (rs ++ r :: ts))).Nodup := by
    rw [hsplit, hstep]
    exact nodup_keys_foldl ts _ (nodup_keys_insert _ _ hnodup0)
  refine ⟨?_, hnodup, ?_⟩
  · rw [hsplit, dictGetD_foldl_preserved ts _ _ hts, hstep, dictGetD_insert_self]
  · have hmem : pyStrip (rawId r) ∈ dictKeyList (parse_channels (rs ++ r :: ts)) := by
      rw [hsplit, hstep]
      exact keys_mono_foldl ts _ (self_mem_keys_insert _ _ _)
    exact List.count_eq_one_of_mem hnodup hmem

/-- Witness for `duplicate_id_last_wins`: two records share id `"7"`; the
later name `"ESPN2"` wins and the id is stored once. -/
theorem duplicate_id_last_wins_witness :
    dictGetD (parse_channels ([⟨some "7", [some "ESPN"]⟩] ++
        (⟨some "7", [some "ESPN2"]⟩ : RawChannel) :: [⟨some "8", [some "HBO"]⟩]))
      (pyStrip (rawId ⟨some "7", [some "ESPN2"]⟩)) "" =
      firstName (RawChannel.mk (some "7") [some "ESPN2"]).displayNames ∧
    (dictKeyList (parse_channels ([⟨some "7", [some "ESPN"]⟩] ++
        (⟨some "7", [some "ESPN2"]⟩ : RawChannel) :: [⟨some "8", [some "HBO"]⟩]))).Nodup ∧
    (dictKeyList (parse_channels ([⟨some "7", [some "ESPN"]⟩] ++
        (⟨some "7", [some "ESPN2"]⟩ : RawChannel) :: [⟨some "8", [some "HBO"]⟩]))).count
      (pyStrip (rawId ⟨some "7", [some "ESPN2"]⟩)) = 1 :=
  duplicate_id_last_wins [⟨some "7", [some "ESPN"]⟩] [⟨some "8", [some "HBO"]⟩]
    ⟨some "7", [some "ESPN2"]⟩ (by decide) (by decide)

end GetXmltv
